import Mathlib

/-!
Shallow embedding of the bf-repl interpreter (src/src/main.rs).

The source is a small Brainfuck interpreter with three stages:
`tokenize` (chars → tokens), `parse_loops` (stack-based bracket matching
into a bidirectional jump table), and `Interpreter::run` (a
fetch-decode-execute while loop over a 30000-cell byte tape).

Modelling decisions, each matching a specific line of the source:
* `u8` cells are `Nat` values kept below 256 by writing every arithmetic
  result modulo 256 (`wrapping_add(1)` is `(v + 1) % 256`,
  `wrapping_sub(1)` is `(v + 255) % 256` — equal to the Rust value for
  every `v < 256`).
* the `HashMap<usize, usize>` jump table is an association list; the scan
  in `parse_loops` never inserts the same key twice (proved below), so
  first-match lookup agrees with `HashMap` semantics.
* `stdout` is a list of emitted bytes.  The Output arm of `run` executes
  `print!("{}", byte as char)`, which writes the UTF-8 encoding of the
  char whose code point is the cell value; `utf8Bytes` is that encoding
  (one byte below 128, two bytes for 128..=255).
* `stdin` is a list of `Except String Nat`: `io::stdin().bytes().next()`
  yields `None` at end of stream (empty list), `Some(Err e)` (an
  `Except.error` element) or `Some(Ok byte)` (an `Except.ok` element).
* `Vec` indexing panics when out of bounds; every memory access in the
  model is guarded and yields the distinguished `panic` outcome instead.
* the unbounded `while` loop is run on explicit fuel; running out of fuel
  is the distinguished `spin` outcome.
-/

/-- The eight instruction symbols, `enum Token` in the source. -/
inductive Token where
  | IncrementPointer
  | DecrementPointer
  | IncrementData
  | DecrementData
  | Output
  | Input
  | LoopStart
  | LoopEnd
deriving DecidableEq, Repr

/-- The per-character table of `tokenize`: the eight recognized symbols map
to their `Token`, everything else to `none`. -/
def charToken (c : Char) : Option Token :=
  if c = '>' then some .IncrementPointer
  else if c = '<' then some .DecrementPointer
  else if c = '+' then some .IncrementData
  else if c = '-' then some .DecrementData
  else if c = '.' then some .Output
  else if c = ',' then some .Input
  else if c = '[' then some .LoopStart
  else if c = ']' then some .LoopEnd
  else none

/-- `tokenize`: `code.chars().filter_map(..).collect()`. -/
def tokenize (code : List Char) : List Token :=
  code.filterMap charToken

/-- The jump table, `HashMap<usize, usize>` in the source, as an
association list (keys are provably unique, see `claim_C5_jump_table`). -/
def JumpTable := List (Nat × Nat)

/-- `jump_table.get(&k)`. -/
def lookupJT (jt : JumpTable) (k : Nat) : Option Nat :=
  (List.find? (fun p => p.fst == k) jt).map Prod.snd

/-- The two error shapes of `parse_loops`, keeping the reported index of
the offending bracket (the source formats them into strings). -/
inductive LoopErr where
  | unmatchedClose (i : Nat)
  | unmatchedOpen (i : Nat)
deriving DecidableEq, Repr

/-- The scan loop of `parse_loops`: `rest` is the unprocessed suffix, `i`
the current index, `stack` the pending loop-open addresses (most recent
first; the source pushes to and pops from the end of a `Vec`, so the
source's `loop_stack[0]` is this list's last element), `table` the
entries inserted so far. -/
def parseLoopsAux : List Token → Nat → List Nat → List (Nat × Nat) →
    Except LoopErr (List (Nat × Nat))
  | [], _, stack, table =>
    match stack with
    | [] => .ok table
    | a :: rest => .error (.unmatchedOpen ((a :: rest).getLastD 0))
  | t :: ts, i, stack, table =>
    match t with
    | .LoopStart => parseLoopsAux ts (i + 1) (i :: stack) table
    | .LoopEnd =>
      match stack with
      | [] => .error (.unmatchedClose i)
      | a :: rest => parseLoopsAux ts (i + 1) rest ((a, i) :: (i, a) :: table)
    | _ => parseLoopsAux ts (i + 1) stack table

/-- `parse_loops`. -/
def parse_loops (tokens : List Token) : Except LoopErr (List (Nat × Nat)) :=
  parseLoopsAux tokens 0 [] []

/-- `Interpreter::MEMORY_SIZE`. -/
def MEMORY_SIZE : Nat := 30000

/-- The `Interpreter` struct: tape, data pointer, instruction pointer.
The tape is a total function on indices; every access the source performs
through `Vec` indexing is bounds-guarded in `step` below, so cells outside
`[0, MEMORY_SIZE)` are never touched by a non-panicking execution. -/
structure Interpreter where
  memory : Nat → Nat
  data_pointer : Nat
  instruction_pointer : Nat

/-- `Interpreter::new()`: zero tape, data pointer at the midpoint,
instruction pointer 0. -/
def Interpreter.new : Interpreter :=
  { memory := fun _ => 0
    data_pointer := MEMORY_SIZE / 2
    instruction_pointer := 0 }

/-- A machine configuration: the interpreter state plus the two I/O
streams the source reads and writes through `io::stdin` / `io::stdout`. -/
structure Config where
  interp : Interpreter
  input : List (Except String Nat)
  output : List Nat

/-- The runtime errors `Interpreter::run` returns (the source formats
them into strings). -/
inductive RunError where
  | pointerOutOfBoundsRight
  | pointerOutOfBoundsLeft
  | inputFailure (msg : String)
  | missingJumpOpen (ip : Nat)
  | missingJumpClose (ip : Nat)
deriving DecidableEq, Repr

/-- UTF-8 encoding of a code point below 2048, as `print!` produces for
`byte as char`: one byte below 128, otherwise a two-byte sequence. -/
def utf8Bytes (v : Nat) : List Nat :=
  if v < 128 then [v] else [192 + v / 64, 128 + v % 64]

def Config.setDp (c : Config) (d : Nat) : Config :=
  { c with interp := { c.interp with data_pointer := d } }

def Config.setIp (c : Config) (i : Nat) : Config :=
  { c with interp := { c.interp with instruction_pointer := i } }

/-- The `self.instruction_pointer += 1` the source runs after every arm of
the match, jumps included. -/
def Config.bumpIp (c : Config) : Config :=
  c.setIp (c.interp.instruction_pointer + 1)

/-- `self.memory[self.data_pointer] = v`. -/
def Config.setCell (c : Config) (v : Nat) : Config :=
  { c with interp :=
      { c.interp with
        memory := fun j => if j = c.interp.data_pointer then v else c.interp.memory j } }

def Config.cell (c : Config) : Nat :=
  c.interp.memory c.interp.data_pointer

def Config.appendOut (c : Config) (bs : List Nat) : Config :=
  { c with output := c.output ++ bs }

def Config.setInput (c : Config) (inp : List (Except String Nat)) : Config :=
  { c with input := inp }

/-- Result of one iteration of the `while` loop of `Interpreter::run`:
continue, fall out of the loop (`ip` reached the length), return an
error, or hit a `Vec` index panic. -/
inductive StepOut where
  | next (c : Config)
  | halt (c : Config)
  | fail (e : RunError) (c : Config)
  | panic (c : Config)

/-- One iteration of the `while self.instruction_pointer < tokens_len`
loop: fetch `tokens[ip]`, run the corresponding match arm, then advance
the instruction pointer by 1 (`Config.bumpIp`).  Guard conditions and
update order follow the source line by line; in particular
`IncrementPointer` increments before the bounds check, so the failing
state carries `data_pointer = MEMORY_SIZE`, while `DecrementPointer`
checks before decrementing. -/
def step (tokens : List Token) (jt : JumpTable) (c : Config) : StepOut :=
  match tokens[c.interp.instruction_pointer]? with
  | none => .halt c
  | some t =>
    match t with
    | .IncrementPointer =>
      let c' := c.setDp (c.interp.data_pointer + 1)
      if MEMORY_SIZE ≤ c'.interp.data_pointer then
        .fail .pointerOutOfBoundsRight c'
      else
        .next c'.bumpIp
    | .DecrementPointer =>
      if c.interp.data_pointer = 0 then
        .fail .pointerOutOfBoundsLeft c
      else
        .next ((c.setDp (c.interp.data_pointer - 1)).bumpIp)
    | .IncrementData =>
      if c.interp.data_pointer < MEMORY_SIZE then
        .next ((c.setCell ((c.cell + 1) % 256)).bumpIp)
      else
        .panic c
    | .DecrementData =>
      if c.interp.data_pointer < MEMORY_SIZE then
        .next ((c.setCell ((c.cell + 255) % 256)).bumpIp)
      else
        .panic c
    | .Output =>
      if c.interp.data_pointer < MEMORY_SIZE then
        .next ((c.appendOut (utf8Bytes c.cell)).bumpIp)
      else
        .panic c
    | .Input =>
      match c.input with
      | [] =>
        if c.interp.data_pointer < MEMORY_SIZE then
          .next ((c.setCell 0).bumpIp)
        else
          .panic c
      | .ok b :: rest =>
        if c.interp.data_pointer < MEMORY_SIZE then
          .next (((c.setCell b).setInput rest).bumpIp)
        else
          .panic c
      | .error e :: rest =>
        .fail (.inputFailure e) (c.setInput rest)
    | .LoopStart =>
      if c.interp.data_pointer < MEMORY_SIZE then
        if c.cell = 0 then
          match lookupJT jt c.interp.instruction_pointer with
          | some j => .next ((c.setIp j).bumpIp)
          | none => .fail (.missingJumpOpen c.interp.instruction_pointer) c
        else
          .next c.bumpIp
      else
        .panic c
    | .LoopEnd =>
      if c.interp.data_pointer < MEMORY_SIZE then
        if c.cell = 0 then
          .next c.bumpIp
        else
          match lookupJT jt c.interp.instruction_pointer with
          | some j => .next ((c.setIp j).bumpIp)
          | none => .fail (.missingJumpClose c.interp.instruction_pointer) c
      else
        .panic c

/-- Final outcome of a run: success, runtime error, `Vec` index panic, or
out of fuel (the source loop has no fuel and would keep spinning). -/
inductive Outcome where
  | ok (c : Config)
  | fail (e : RunError) (c : Config)
  | panic (c : Config)
  | spin (c : Config)

/-- The `while` loop of `Interpreter::run`, on explicit fuel. -/
def runFuel (tokens : List Token) (jt : JumpTable) : Nat → Config → Outcome
  | 0, c => .spin c
  | fuel + 1, c =>
    match step tokens jt c with
    | .halt c' => .ok c'
    | .next c' => runFuel tokens jt fuel c'
    | .fail e c' => .fail e c'
    | .panic c' => .panic c'

/-- `instruction_pointer = 0`, the first statement of `Interpreter::run`. -/
def Config.resetIp (c : Config) : Config := c.setIp 0

/-- `Interpreter::run`: reset the instruction pointer to 0, then execute
the while loop.  The tape and the data pointer of the incoming state are
not touched before the loop starts. -/
def Interpreter.run (tokens : List Token) (jt : JumpTable) (fuel : Nat)
    (c : Config) : Outcome :=
  runFuel tokens jt fuel c.resetIp

/-- Configuration of a freshly constructed engine reading from `inp`. -/
def freshConfig (inp : List (Except String Nat)) : Config :=
  { interp := Interpreter.new, input := inp, output := [] }

/-- Project the final configuration of a successful run. -/
def Outcome.config? : Outcome → Option Config
  | .ok c => some c
  | _ => none

/-- Project the output stream of a successful run. -/
def Outcome.output? (o : Outcome) : Option (List Nat) :=
  o.config?.map Config.output

set_option maxRecDepth 100000
set_option linter.unusedVariables false
set_option maxHeartbeats 2000000

/-! ## Execution-engine claims -/

/-- Claim C1 (as stated) is false on the code: the Output arm runs
`print!("{}", byte as char)`, which writes the UTF-8 encoding of the char
whose code point is the cell value.  Running 128 increment-cell
instructions followed by a single output-cell instruction therefore puts
two bytes (194, 128 — the UTF-8 encoding of U+0080) on the output stream
for that one invocation, not one. -/
theorem claim_C1_counterexample :
    (Interpreter.run (List.replicate 128 Token.IncrementData ++ [Token.Output]) [] 200
        (freshConfig [])).output? = some [194, 128] ∧
    ((Interpreter.run (List.replicate 128 Token.IncrementData ++ [Token.Output]) [] 200
        (freshConfig [])).output?.map List.length) ≠ some 1 := by
  exact ⟨by decide, by decide⟩

/-- Claim C1 (amended): every execution of an output-cell instruction
writes exactly one character — code point equal to the cell value — to
the output stream per invocation; as bytes this is exactly the UTF-8
encoding of that character: one byte equal to the cell value when the
value is below 128, and two bytes for values 128..=255. -/
theorem claim_C1_output_encoding (tokens : List Token) (jt : JumpTable) (c : Config)
    (htok : tokens[c.interp.instruction_pointer]? = some Token.Output)
    (hdp : c.interp.data_pointer < MEMORY_SIZE) :
    step tokens jt c = .next ((c.appendOut (utf8Bytes c.cell)).bumpIp) ∧
    (c.cell < 128 → utf8Bytes c.cell = [c.cell]) ∧
    (128 ≤ c.cell → (utf8Bytes c.cell).length = 2) := by
  refine ⟨?_, ?_, ?_⟩
  · unfold step
    rw [htok]
    simp [hdp]
  · intro hlt
    simp [utf8Bytes, hlt]
  · intro hge
    simp [utf8Bytes, Nat.not_lt.mpr hge]

/-- Witness for `claim_C1_output_encoding` at a concrete configuration. -/
theorem claim_C1_output_encoding_witness :
    step [Token.Output] [] (freshConfig []) =
      .next (((freshConfig []).appendOut (utf8Bytes (freshConfig []).cell)).bumpIp) ∧
    utf8Bytes (freshConfig []).cell = [(freshConfig []).cell] :=
  ⟨(claim_C1_output_encoding [Token.Output] [] (freshConfig []) rfl (by decide)).1,
   (claim_C1_output_encoding [Token.Output] [] (freshConfig []) rfl (by decide)).2.1
     (by decide)⟩

/-- Claim C2: from any in-bounds configuration, a successful step keeps the
data pointer inside `[0, MEMORY_SIZE)` (so the pointer is in bounds at
every fetch of every execution); move-pointer-left at index 0 fails with
the left bounds error leaving the configuration untouched;
move-pointer-right at the last valid index fails with the right bounds
error (the source increments before checking, so the aborted state carries
`data_pointer = MEMORY_SIZE`); and any failing step aborts the run
immediately — `runFuel` returns that very error and state with no further
execution. -/
theorem claim_C2_pointer_bounds (tokens : List Token) (jt : JumpTable) (c : Config)
    (hwf : c.interp.data_pointer < MEMORY_SIZE) :
    (∀ c', step tokens jt c = .next c' → c'.interp.data_pointer < MEMORY_SIZE) ∧
    (tokens[c.interp.instruction_pointer]? = some Token.DecrementPointer →
      c.interp.data_pointer = 0 →
      step tokens jt c = .fail .pointerOutOfBoundsLeft c) ∧
    (tokens[c.interp.instruction_pointer]? = some Token.IncrementPointer →
      c.interp.data_pointer = MEMORY_SIZE - 1 →
      step tokens jt c = .fail .pointerOutOfBoundsRight (c.setDp MEMORY_SIZE)) ∧
    (∀ e c', step tokens jt c = .fail e c' →
      ∀ fuel, runFuel tokens jt (fuel + 1) c = .fail e c') := by
  refine ⟨?_, ?_, ?_, ?_⟩
  · intro c' h
    unfold step at h
    cases htok : tokens[c.interp.instruction_pointer]? with
    | none => rw [htok] at h; simp at h
    | some t =>
      rw [htok] at h
      cases t
      case IncrementPointer =>
        simp only [] at h
        split at h
        · simp at h
        · rename_i hlt
          cases h
          simpa [Config.bumpIp, Config.setDp, Config.setIp] using Nat.lt_of_not_le hlt
      case DecrementPointer =>
        simp only [] at h
        split at h
        · simp at h
        · cases h
          simp only [Config.bumpIp, Config.setDp, Config.setIp]
          omega
      case IncrementData =>
        simp only [hwf, if_true] at h
        cases h
        simpa [Config.bumpIp, Config.setCell, Config.setIp] using hwf
      case DecrementData =>
        simp only [hwf, if_true] at h
        cases h
        simpa [Config.bumpIp, Config.setCell, Config.setIp] using hwf
      case Output =>
        simp only [hwf, if_true] at h
        cases h
        simpa [Config.bumpIp, Config.appendOut, Config.setIp] using hwf
      case Input =>
        cases hin : c.input with
        | nil =>
          rw [hin] at h
          simp only [hwf, if_true] at h
          cases h
          simpa [Config.bumpIp, Config.setCell, Config.setIp] using hwf
        | cons e rest =>
          rw [hin] at h
          cases e with
          | ok b =>
            simp only [hwf, if_true] at h
            cases h
            simpa [Config.bumpIp, Config.setCell, Config.setInput, Config.setIp] using hwf
          | error msg => simp at h
      case LoopStart =>
        simp only [hwf, if_true] at h
        split at h
        · cases hjt : lookupJT jt c.interp.instruction_pointer with
          | none => rw [hjt] at h; simp at h
          | some j =>
            rw [hjt] at h
            cases h
            simpa [Config.bumpIp, Config.setIp] using hwf
        · cases h
          simpa [Config.bumpIp, Config.setIp] using hwf
      case LoopEnd =>
        simp only [hwf, if_true] at h
        split at h
        · cases h
          simpa [Config.bumpIp, Config.setIp] using hwf
        · cases hjt : lookupJT jt c.interp.instruction_pointer with
          | none => rw [hjt] at h; simp at h
          | some j =>
            rw [hjt] at h
            cases h
            simpa [Config.bumpIp, Config.setIp] using hwf
  · intro htok hdp
    unfold step
    rw [htok]
    simp [hdp]
  · intro htok hdp
    unfold step
    rw [htok]
    have h1 : MEMORY_SIZE - 1 + 1 = MEMORY_SIZE := rfl
    simp only [hdp, h1, Config.setDp]
    rw [if_pos (Nat.le_refl MEMORY_SIZE)]
  · intro e c' h fuel
    simp [runFuel, h]

/-- Witness for `claim_C2_pointer_bounds`: a left move at index 0 fails
with the left bounds error, a right move at the last index fails with the
right bounds error, and the run aborts at once with that error. -/
theorem claim_C2_pointer_bounds_witness :
    step [Token.DecrementPointer] [] ((freshConfig []).setDp 0) =
      .fail .pointerOutOfBoundsLeft ((freshConfig []).setDp 0) ∧
    step [Token.IncrementPointer] [] ((freshConfig []).setDp (MEMORY_SIZE - 1)) =
      .fail .pointerOutOfBoundsRight
        (((freshConfig []).setDp (MEMORY_SIZE - 1)).setDp MEMORY_SIZE) ∧
    runFuel [Token.DecrementPointer] [] 1 ((freshConfig []).setDp 0) =
      .fail .pointerOutOfBoundsLeft ((freshConfig []).setDp 0) := by
  have h1 := (claim_C2_pointer_bounds [Token.DecrementPointer] []
    ((freshConfig []).setDp 0) (by decide)).2.1 rfl rfl
  have h2 := (claim_C2_pointer_bounds [Token.IncrementPointer] []
    ((freshConfig []).setDp (MEMORY_SIZE - 1)) (by decide)).2.2.1 rfl rfl
  have h3 := (claim_C2_pointer_bounds [Token.DecrementPointer] []
    ((freshConfig []).setDp 0) (by decide)).2.2.2 _ _ h1 0
  exact ⟨h1, h2, h3⟩

/-- Claim C3: a loop-open jumps to the jump-table address exactly when the
current cell is 0 and otherwise falls through; a loop-close jumps exactly
when the cell is non-zero; after every successful instruction the
instruction pointer is `base + 1` where `base` is either the old
instruction pointer or the jump-table target (the jump target is the
bracket address itself, the `+ 1` happens after); and when the
instruction pointer has reached the sequence length the loop exits with
success, the state untouched. -/
theorem claim_C3_control_flow (tokens : List Token) (jt : JumpTable) (c : Config) :
    (tokens[c.interp.instruction_pointer]? = some Token.LoopStart →
      c.interp.data_pointer < MEMORY_SIZE → c.cell = 0 →
      ∀ j, lookupJT jt c.interp.instruction_pointer = some j →
        step tokens jt c = .next ((c.setIp j).bumpIp)) ∧
    (tokens[c.interp.instruction_pointer]? = some Token.LoopStart →
      c.interp.data_pointer < MEMORY_SIZE → c.cell ≠ 0 →
      step tokens jt c = .next c.bumpIp) ∧
    (tokens[c.interp.instruction_pointer]? = some Token.LoopEnd →
      c.interp.data_pointer < MEMORY_SIZE → c.cell ≠ 0 →
      ∀ j, lookupJT jt c.interp.instruction_pointer = some j →
        step tokens jt c = .next ((c.setIp j).bumpIp)) ∧
    (tokens[c.interp.instruction_pointer]? = some Token.LoopEnd →
      c.interp.data_pointer < MEMORY_SIZE → c.cell = 0 →
      step tokens jt c = .next c.bumpIp) ∧
    (∀ c', step tokens jt c = .next c' →
      ∃ base, c'.interp.instruction_pointer = base + 1 ∧
        (base = c.interp.instruction_pointer ∨
          lookupJT jt c.interp.instruction_pointer = some base)) ∧
    (tokens.length ≤ c.interp.instruction_pointer →
      ∀ fuel, runFuel tokens jt (fuel + 1) c = .ok c) := by
  refine ⟨?_, ?_, ?_, ?_, ?_, ?_⟩
  · intro htok hdp hz j hjt
    unfold step
    rw [htok]
    simp [hdp, hz, hjt]
  · intro htok hdp hnz
    unfold step
    rw [htok]
    simp [hdp, hnz]
  · intro htok hdp hnz j hjt
    unfold step
    rw [htok]
    simp [hdp, hnz, hjt]
  · intro htok hdp hz
    unfold step
    rw [htok]
    simp [hdp, hz]
  · intro c' h
    unfold step at h
    cases htok : tokens[c.interp.instruction_pointer]? with
    | none => rw [htok] at h; simp at h
    | some t =>
      rw [htok] at h
      cases t
      case IncrementPointer =>
        simp only [] at h
        split at h
        · simp at h
        · cases h
          exact ⟨c.interp.instruction_pointer, rfl, Or.inl rfl⟩
      case DecrementPointer =>
        simp only [] at h
        split at h
        · simp at h
        · cases h
          exact ⟨c.interp.instruction_pointer, rfl, Or.inl rfl⟩
      case IncrementData =>
        simp only [] at h
        split at h
        · cases h
          exact ⟨c.interp.instruction_pointer, rfl, Or.inl rfl⟩
        · simp at h
      case DecrementData =>
        simp only [] at h
        split at h
        · cases h
          exact ⟨c.interp.instruction_pointer, rfl, Or.inl rfl⟩
        · simp at h
      case Output =>
        simp only [] at h
        split at h
        · cases h
          exact ⟨c.interp.instruction_pointer, rfl, Or.inl rfl⟩
        · simp at h
      case Input =>
        simp only [] at h
        cases hin : c.input with
        | nil =>
          rw [hin] at h
          simp only [] at h
          split at h
          · cases h
            exact ⟨c.interp.instruction_pointer, rfl, Or.inl rfl⟩
          · simp at h
        | cons e rest =>
          rw [hin] at h
          cases e with
          | ok b =>
            simp only [] at h
            split at h
            · cases h
              exact ⟨c.interp.instruction_pointer, rfl, Or.inl rfl⟩
            · simp at h
          | error msg => simp at h
      case LoopStart =>
        simp only [] at h
        split at h
        · split at h
          · cases hjt : lookupJT jt c.interp.instruction_pointer with
            | none => rw [hjt] at h; simp at h
            | some j =>
              rw [hjt] at h
              cases h
              exact ⟨j, rfl, Or.inr rfl⟩
          · cases h
            exact ⟨c.interp.instruction_pointer, rfl, Or.inl rfl⟩
        · simp at h
      case LoopEnd =>
        simp only [] at h
        split at h
        · split at h
          · cases h
            exact ⟨c.interp.instruction_pointer, rfl, Or.inl rfl⟩
          · cases hjt : lookupJT jt c.interp.instruction_pointer with
            | none => rw [hjt] at h; simp at h
            | some j =>
              rw [hjt] at h
              cases h
              exact ⟨j, rfl, Or.inr rfl⟩
        · simp at h
  · intro hend fuel
    have hnone : tokens[c.interp.instruction_pointer]? = none :=
      List.getElem?_eq_none hend
    simp [runFuel, step, hnone]

/-- Witness for `claim_C3_control_flow`: on program `[ ]` with its jump
table and a fresh engine (current cell 0) the loop-open jumps to the
close address 1 and lands at 2, and on the empty program the loop exits
successfully at once. -/
theorem claim_C3_control_flow_witness :
    step [Token.LoopStart, Token.LoopEnd] [(0, 1), (1, 0)] (freshConfig []) =
      .next (((freshConfig []).setIp 1).bumpIp) ∧
    runFuel [] [] 1 (freshConfig []) = .ok (freshConfig []) :=
  ⟨(claim_C3_control_flow [Token.LoopStart, Token.LoopEnd] [(0, 1), (1, 0)]
      (freshConfig [])).1 rfl (by decide) rfl 1 rfl,
   (claim_C3_control_flow [] [] (freshConfig [])).2.2.2.2.2 (by decide) 0⟩

/-- Claim C6: increment-cell and decrement-cell wrap modulo 256 and never
fail — with an in-bounds data pointer both arms always produce a `next`
step writing the cell modulo 256; 256 consecutive increments on a fresh
(zero) cell return it to 0; one decrement on a zero cell yields 255. -/
theorem claim_C6_cell_wrap (tokens : List Token) (jt : JumpTable) (c : Config) :
    (tokens[c.interp.instruction_pointer]? = some Token.IncrementData →
      c.interp.data_pointer < MEMORY_SIZE →
      step tokens jt c = .next ((c.setCell ((c.cell + 1) % 256)).bumpIp)) ∧
    (tokens[c.interp.instruction_pointer]? = some Token.DecrementData →
      c.interp.data_pointer < MEMORY_SIZE →
      step tokens jt c = .next ((c.setCell ((c.cell + 255) % 256)).bumpIp)) ∧
    ((Interpreter.run (List.replicate 256 Token.IncrementData) [] 300
        (freshConfig [])).config?.map Config.cell = some 0) ∧
    ((Interpreter.run [Token.DecrementData] [] 10
        (freshConfig [])).config?.map Config.cell = some 255) := by
  refine ⟨?_, ?_, by decide, by decide⟩
  · intro htok hdp
    unfold step
    rw [htok]
    simp [hdp]
  · intro htok hdp
    unfold step
    rw [htok]
    simp [hdp]

/-- Witness for `claim_C6_cell_wrap` at a concrete configuration: one
increment-cell on a fresh engine writes `(0 + 1) % 256` to the cell. -/
theorem claim_C6_cell_wrap_witness :
    step [Token.IncrementData] [] (freshConfig []) =
      .next (((freshConfig []).setCell (((freshConfig []).cell + 1) % 256)).bumpIp) :=
  (claim_C6_cell_wrap [Token.IncrementData] [] (freshConfig [])).1 rfl (by decide)

/-- Claim C8: an input-cell instruction on an exhausted input stream sets
the current cell to 0 and the run continues (a `next` step, no error); a
successfully read byte is stored and also continues; only a read failure
other than end-of-stream makes the step fail. -/
theorem claim_C8_input_eof (tokens : List Token) (jt : JumpTable) (c : Config) :
    (tokens[c.interp.instruction_pointer]? = some Token.Input →
      c.input = [] → c.interp.data_pointer < MEMORY_SIZE →
      step tokens jt c = .next ((c.setCell 0).bumpIp)) ∧
    (tokens[c.interp.instruction_pointer]? = some Token.Input →
      ∀ b rest, c.input = .ok b :: rest → c.interp.data_pointer < MEMORY_SIZE →
      step tokens jt c = .next (((c.setCell b).setInput rest).bumpIp)) ∧
    (tokens[c.interp.instruction_pointer]? = some Token.Input →
      ∀ e rest, c.input = .error e :: rest →
      step tokens jt c = .fail (.inputFailure e) (c.setInput rest)) := by
  refine ⟨?_, ?_, ?_⟩
  · intro htok hin hdp
    unfold step
    rw [htok, hin]
    simp [hdp]
  · intro htok b rest hin hdp
    unfold step
    rw [htok, hin]
    simp [hdp]
  · intro htok e rest hin
    unfold step
    rw [htok, hin]

/-- Witness for `claim_C8_input_eof`: input-cell on a fresh engine with an
empty input stream zeroes the cell and continues. -/
theorem claim_C8_input_eof_witness :
    step [Token.Input] [] (freshConfig []) =
      .next (((freshConfig []).setCell 0).bumpIp) :=
  (claim_C8_input_eof [Token.Input] [] (freshConfig [])).1 rfl rfl (by decide)

/-- The end-to-end example program of the spec. -/
def demoTokens : List Token := tokenize "++>+++++[<+>-]<.".data

/-- Claim C9: a freshly constructed engine has the data pointer at the
tape midpoint (`MEMORY_SIZE / 2`) and an all-zero tape, and running the
program `++>+++++[<+>-]<.` on it (through `parse_loops` for the jump
table) terminates successfully with exactly the single byte 7 on the
output stream. -/
theorem claim_C9_end_to_end :
    Interpreter.new.data_pointer = MEMORY_SIZE / 2 ∧
    Interpreter.new.memory = (fun _ => 0) ∧
    ((parse_loops demoTokens).toOption.bind
      (fun jt => (Interpreter.run demoTokens jt 50 (freshConfig [])).output?))
      = some [7] :=
  ⟨rfl, rfl, by decide⟩

/-- Claim C10: `Interpreter.run` resets the instruction pointer to 0
before the first fetch and starts the loop from the incoming tape, data
pointer and streams unchanged; concretely, running the one-instruction
program `+` twice on the same engine (as the REPL does) accumulates the
cell to 2 — the second run starts from the carried-over tape and from
instruction pointer 0 again (had the instruction pointer carried over,
the second run would have halted at once and left the cell at 1). -/
theorem claim_C10_run_frame :
    (∀ (tokens : List Token) (jt : JumpTable) (fuel : Nat) (c : Config),
      Interpreter.run tokens jt fuel c = runFuel tokens jt fuel c.resetIp) ∧
    (∀ c : Config,
      c.resetIp.interp.memory = c.interp.memory ∧
      c.resetIp.interp.data_pointer = c.interp.data_pointer ∧
      c.resetIp.interp.instruction_pointer = 0 ∧
      c.resetIp.input = c.input ∧
      c.resetIp.output = c.output) ∧
    (((Interpreter.run [Token.IncrementData] [] 10 (freshConfig [])).config?.bind
        (fun c1 => (Interpreter.run [Token.IncrementData] [] 10 c1).config?)).map
        (fun c2 => (c2.cell, c2.interp.data_pointer, c2.interp.instruction_pointer))
      = some (2, MEMORY_SIZE / 2, 1)) :=
  ⟨fun _ _ _ _ => rfl,
   fun _ => ⟨rfl, rfl, rfl, rfl, rfl⟩,
   by decide⟩

/-! ## Tokenizer claims -/

/-- Claim C7: `tokenize` is total by construction and its output length
equals the count of characters among the eight recognized symbols; it
distributes over concatenation and maps each single character to the
token list of its `charToken` image, so the relative order of recognized
characters is preserved and every other character is dropped; every
character other than the eight symbols maps to no token; and tokenizing
`"++ Hello [<]"` yields increment-cell, increment-cell, loop-open,
move-pointer-left, loop-close. -/
theorem claim_C7_tokenize (code : List Char) :
    (tokenize code).length = code.countP (fun c => (charToken c).isSome) ∧
    (∀ xs ys : List Char, tokenize (xs ++ ys) = tokenize xs ++ tokenize ys) ∧
    (∀ c : Char, tokenize [c] = (charToken c).toList) ∧
    (∀ c : Char, c ≠ '>' → c ≠ '<' → c ≠ '+' → c ≠ '-' → c ≠ '.' → c ≠ ',' →
      c ≠ '[' → c ≠ ']' → charToken c = none) ∧
    tokenize "++ Hello [<]".data =
      [Token.IncrementData, Token.IncrementData, Token.LoopStart,
       Token.DecrementPointer, Token.LoopEnd] := by
  refine ⟨?_, ?_, ?_, ?_, by decide⟩
  · induction code with
    | nil => rfl
    | cons c cs ih =>
      simp only [tokenize, List.filterMap_cons, List.countP_cons]
      cases h : charToken c with
      | none => simpa [h] using ih
      | some t => simpa [h] using ih
  · intro xs ys
    simp [tokenize, List.filterMap_append]
  · intro c
    cases h : charToken c <;> simp [tokenize, h]
  · intro c h1 h2 h3 h4 h5 h6 h7 h8
    simp [charToken, h1, h2, h3, h4, h5, h6, h7, h8]

/-- Witness for `claim_C7_tokenize` at concrete inputs: the length count
on `"x+"` and the dropping of the unrecognized character `x`. -/
theorem claim_C7_tokenize_witness :
    (tokenize "x+".data).length = "x+".data.countP (fun c => (charToken c).isSome) ∧
    charToken 'x' = none :=
  ⟨(claim_C7_tokenize "x+".data).1,
   (claim_C7_tokenize "x+".data).2.2.2.1 'x' (by decide) (by decide) (by decide)
     (by decide) (by decide) (by decide) (by decide) (by decide)⟩

/-! ## Loop-resolver claims: bracket-balance machinery

`depthRun` is the standard counter characterization of bracket nesting:
it scans a token list keeping the number of currently open loops, fails
(`none`) when a loop-close appears with no loop open, and otherwise
returns the final count.  `BalancedTokens l` — the scan ends back at depth 0 —
is the independent specification of "valid bracket nesting" the
resolver claims are measured against. -/

def depthRun : List Token → Nat → Option Nat
  | [], n => some n
  | .LoopStart :: ts, n => depthRun ts (n + 1)
  | .LoopEnd :: ts, n =>
    match n with
    | 0 => none
    | m + 1 => depthRun ts m
  | _ :: ts, n => depthRun ts n

/-- Standard bracket balance: the depth scan starts and ends at 0 and
never goes negative. -/
def BalancedTokens (l : List Token) : Prop := depthRun l 0 = some 0

instance (l : List Token) : Decidable (BalancedTokens l) :=
  inferInstanceAs (Decidable (depthRun l 0 = some 0))

/-- The tokens strictly between positions `a` and `b`. -/
def sliceBetween (tokens : List Token) (a b : Nat) : List Token :=
  (tokens.take b).drop (a + 1)

/-- `b` is the lexically matching loop-close of the loop-open at `a`:
`a` holds a loop-open, `b` a later loop-close, and everything strictly
between them is balanced.  This is the standard characterization of
innermost-first (stack) bracket matching. -/
def MatchPair (tokens : List Token) (a b : Nat) : Prop :=
  a < b ∧ tokens[a]? = some Token.LoopStart ∧ tokens[b]? = some Token.LoopEnd ∧
    BalancedTokens (sliceBetween tokens a b)

instance (tokens : List Token) (a b : Nat) : Decidable (MatchPair tokens a b) := by
  unfold MatchPair
  infer_instance

/-- Number of entries of the table whose key is `k`. -/
def keyCount (table : List (Nat × Nat)) (k : Nat) : Nat :=
  table.countP (fun p => p.fst == k)

/-- Position `k` holds a loop-open or a loop-close. -/
def BracketAt (tokens : List Token) (k : Nat) : Prop :=
  tokens[k]? = some Token.LoopStart ∨ tokens[k]? = some Token.LoopEnd

instance (tokens : List Token) (k : Nat) : Decidable (BracketAt tokens k) := by
  unfold BracketAt
  infer_instance

theorem depthRun_append (l1 l2 : List Token) (n : Nat) :
    depthRun (l1 ++ l2) n = (depthRun l1 n).bind (depthRun l2) := by
  induction l1 generalizing n with
  | nil => rfl
  | cons t ts ih =>
    cases t
    case LoopStart => simpa [depthRun] using ih (n + 1)
    case LoopEnd =>
      cases n with
      | zero => rfl
      | succ m => simpa [depthRun] using ih m
    all_goals simpa [depthRun] using ih n

theorem depthRun_succ (l : List Token) :
    ∀ n m, depthRun l n = some m → depthRun l (n + 1) = some (m + 1) := by
  induction l with
  | nil =>
    intro n m h
    simp [depthRun] at h ⊢
    omega
  | cons t ts ih =>
    intro n m h
    cases t
    case LoopStart => exact ih (n + 1) m h
    case LoopEnd =>
      cases n with
      | zero => simp [depthRun] at h
      | succ k => exact ih k m h
    all_goals exact ih n m h

theorem sliceBetween_self (tokens : List Token) (i : Nat) :
    sliceBetween tokens i (i + 1) = [] := by
  unfold sliceBetween
  apply List.drop_eq_nil_of_le
  simp [List.length_take]

theorem sliceBetween_snoc (tokens : List Token) (a i : Nat) (t : Token)
    (hi : tokens[i]? = some t) (hai : a < i) :
    sliceBetween tokens a (i + 1) = sliceBetween tokens a i ++ [t] := by
  have hilen : i < tokens.length := (List.getElem?_eq_some.mp hi).1
  unfold sliceBetween
  rw [List.take_succ, hi]
  rw [List.drop_append_of_le_length]
  · rfl
  · rw [List.length_take]
    omega

theorem sliceBetween_split (tokens : List Token) (a b c : Nat) (tb : Token)
    (hab : a < b) (hbc : b < c) (hc : c ≤ tokens.length)
    (hb : tokens[b]? = some tb) :
    sliceBetween tokens a c =
      (sliceBetween tokens a b ++ [tb]) ++ sliceBetween tokens b c := by
  have hblen : b < tokens.length := (List.getElem?_eq_some.mp hb).1
  have h1 : tokens.take c = tokens.take (b + 1) ++ (tokens.take c).drop (b + 1) := by
    conv_lhs => rw [← List.take_append_drop (b + 1) (tokens.take c)]
    rw [List.take_take]
    congr 1
    congr 1
    omega
  have h2 : sliceBetween tokens a (b + 1) = sliceBetween tokens a b ++ [tb] :=
    sliceBetween_snoc tokens a b tb hb hab
  unfold sliceBetween at h2 ⊢
  have h3 : List.drop (a + 1) (List.take c tokens) =
      List.drop (a + 1) (List.take (b + 1) tokens) ++
        List.drop (b + 1) (List.take c tokens) := by
    conv_lhs => rw [h1]
    rw [List.drop_append_of_le_length]
    rw [List.length_take]
    omega
  rw [h3, h2]

theorem balanced_wrap (x y : List Token) (hx : BalancedTokens x) (hy : BalancedTokens y) :
    BalancedTokens ((x ++ [Token.LoopStart]) ++ (y ++ [Token.LoopEnd])) := by
  unfold BalancedTokens at *
  have h2 : depthRun y 1 = some 1 := depthRun_succ y 0 0 hy
  rw [depthRun_append, depthRun_append, hx]
  show depthRun (y ++ [Token.LoopEnd]) 1 = some 0
  rw [depthRun_append, h2]
  rfl

theorem getLastD_cons_mem (a : Nat) (l : List Nat) : (a :: l).getLastD 0 ∈ a :: l := by
  induction l generalizing a with
  | nil => simp [List.getLastD]
  | cons b m ih =>
    rw [List.getLastD_cons]
    exact List.mem_cons_of_mem a (ih b)

/-- The scan succeeds exactly when the depth count of the remaining input,
started at the current stack height, comes back to zero. -/
theorem parseAux_ok_iff (rest : List Token) :
    ∀ (i : Nat) (stack : List Nat) (table : List (Nat × Nat)),
      (∃ t', parseLoopsAux rest i stack table = .ok t') ↔
        depthRun rest stack.length = some 0 := by
  induction rest with
  | nil =>
    intro i stack table
    cases stack with
    | nil => simp [parseLoopsAux, depthRun]
    | cons a s => simp [parseLoopsAux, depthRun]
  | cons t ts ih =>
    intro i stack table
    cases t
    case LoopStart =>
      simpa [parseLoopsAux, depthRun] using ih (i + 1) (i :: stack) table
    case LoopEnd =>
      cases stack with
      | nil => simp [parseLoopsAux, depthRun]
      | cons a s =>
        simpa [parseLoopsAux, depthRun] using ih (i + 1) s ((a, i) :: (i, a) :: table)
    all_goals simpa [parseLoopsAux, depthRun] using ih (i + 1) stack table

/-- An unmatched-loop-close error reports the address of a loop-close
that is scanned while no loop-open is pending: the depth of the prefix
before it is zero. -/
theorem parseAux_close_err (rest : List Token) :
    ∀ (pre : List Token) (stack : List Nat) (table : List (Nat × Nat)) (i : Nat),
      depthRun pre 0 = some stack.length →
      parseLoopsAux rest pre.length stack table = .error (.unmatchedClose i) →
      (pre ++ rest)[i]? = some Token.LoopEnd ∧
        depthRun ((pre ++ rest).take i) 0 = some 0 := by
  induction rest with
  | nil =>
    intro pre stack table i hdepth h
    cases stack with
    | nil => simp [parseLoopsAux] at h
    | cons a s => simp [parseLoopsAux] at h
  | cons t ts ih =>
    intro pre stack table i hdepth h
    have hassoc : (pre ++ [t]) ++ ts = pre ++ t :: ts := by simp
    have hlen : (pre ++ [t]).length = pre.length + 1 := by simp
    cases t
    case LoopStart =>
      simp only [parseLoopsAux] at h
      rw [← hlen] at h
      have := ih _ (pre.length :: stack) table i
        (by rw [depthRun_append, hdepth]; simp [depthRun]) h
      rwa [hassoc] at this
    case LoopEnd =>
      cases stack with
      | nil =>
        simp only [parseLoopsAux] at h
        cases h
        constructor
        · rw [List.getElem?_append_right (Nat.le_refl pre.length)]
          simp
        · rw [List.take_left]
          simpa using hdepth
      | cons a s =>
        simp only [parseLoopsAux] at h
        rw [← hlen] at h
        have := ih _ s ((a, pre.length) :: (pre.length, a) :: table) i
          (by rw [depthRun_append, hdepth]; simp [depthRun]) h
        rwa [hassoc] at this
    all_goals {
      simp only [parseLoopsAux] at h
      rw [← hlen] at h
      have := ih _ stack table i
        (by rw [depthRun_append, hdepth]; simp [depthRun]) h
      rwa [hassoc] at this
    }

/-- An unmatched-loop-open error reports an address still pending on the
stack, which always holds a loop-open. -/
theorem parseAux_open_err (rest : List Token) :
    ∀ (pre : List Token) (stack : List Nat) (table : List (Nat × Nat)) (i : Nat),
      (∀ a ∈ stack, (pre ++ rest)[a]? = some Token.LoopStart) →
      parseLoopsAux rest pre.length stack table = .error (.unmatchedOpen i) →
      (pre ++ rest)[i]? = some Token.LoopStart := by
  induction rest with
  | nil =>
    intro pre stack table i hopen h
    cases stack with
    | nil => simp [parseLoopsAux] at h
    | cons a s =>
      simp only [parseLoopsAux] at h
      cases h
      exact hopen _ (getLastD_cons_mem a s)
  | cons t ts ih =>
    intro pre stack table i hopen h
    have hassoc : (pre ++ [t]) ++ ts = pre ++ t :: ts := by simp
    have hlen : (pre ++ [t]).length = pre.length + 1 := by simp
    cases t
    case LoopStart =>
      simp only [parseLoopsAux] at h
      rw [← hlen] at h
      have := ih _ (pre.length :: stack) table i
        (by
          intro a ha
          rw [hassoc]
          rcases List.mem_cons.mp ha with rfl | ha'
          · rw [List.getElem?_append_right (Nat.le_refl _)]
            simp
          · exact hopen a ha') h
      rwa [hassoc] at this
    case LoopEnd =>
      cases stack with
      | nil => simp [parseLoopsAux] at h
      | cons a s =>
        simp only [parseLoopsAux] at h
        rw [← hlen] at h
        have := ih _ s ((a, pre.length) :: (pre.length, a) :: table) i
          (by
            intro b hb
            rw [hassoc]
            exact hopen b (List.mem_cons_of_mem a hb)) h
        rwa [hassoc] at this
    all_goals {
      simp only [parseLoopsAux] at h
      rw [← hlen] at h
      have := ih _ stack table i
        (by
          intro b hb
          rw [hassoc]
          exact hopen b hb) h
      rwa [hassoc] at this
    }

/-- Claim C4: the loop resolver succeeds exactly on balanced bracket
sequences; an unmatched-loop-close error reports the address of a
loop-close scanned with no pending loop-open (prefix depth zero); an
unmatched-loop-open error reports a pending loop-open address; and on the
two spec examples the reported indices are 6 (unmatched open) and 8
(unmatched close). -/
theorem claim_C4_resolver_errors (tokens : List Token) :
    ((∃ table, parse_loops tokens = .ok table) ↔ BalancedTokens tokens) ∧
    (∀ i, parse_loops tokens = .error (.unmatchedClose i) →
      tokens[i]? = some Token.LoopEnd ∧ depthRun (tokens.take i) 0 = some 0) ∧
    (∀ i, parse_loops tokens = .error (.unmatchedOpen i) →
      tokens[i]? = some Token.LoopStart) ∧
    parse_loops (tokenize "[<>]++[".data) = .error (.unmatchedOpen 6) ∧
    parse_loops (tokenize "[<>]++[]]".data) = .error (.unmatchedClose 8) := by
  refine ⟨?_, ?_, ?_, rfl, rfl⟩
  · exact parseAux_ok_iff tokens 0 [] []
  · intro i h
    have h2 := parseAux_close_err tokens [] [] [] i rfl h
    simpa using h2
  · intro i h
    have h2 := parseAux_open_err tokens [] [] [] i (by simp) h
    simpa using h2

/-- Witness for `claim_C4_resolver_errors` at concrete inputs. -/
theorem claim_C4_resolver_errors_witness :
    BalancedTokens (tokenize "[]".data) ∧
    ((tokenize "]".data)[0]? = some Token.LoopEnd ∧
      depthRun ((tokenize "]".data).take 0) 0 = some 0) ∧
    (tokenize "[".data)[0]? = some Token.LoopStart :=
  ⟨(claim_C4_resolver_errors (tokenize "[]".data)).1.mp ⟨[(0, 1), (1, 0)], rfl⟩,
   (claim_C4_resolver_errors (tokenize "]".data)).2.1 0 rfl,
   (claim_C4_resolver_errors (tokenize "[".data)).2.2.1 0 rfl⟩

/-- Balance of the segments delimited by the pending loop-open addresses:
for each adjacent pair in the (current position :: stack) list, the tokens
strictly between them are balanced.  This is the scan invariant that makes
each popped pair a lexical match. -/
def SegsBal (tokens : List Token) : List Nat → Prop
  | x :: y :: rest => BalancedTokens (sliceBetween tokens y x) ∧ SegsBal tokens (y :: rest)
  | _ => True

theorem parseAux_table_inv (rest : List Token) :
    ∀ (pre : List Token) (stack : List Nat) (table table' : List (Nat × Nat)),
      stack.Pairwise (fun a b => b < a) →
      (∀ a ∈ stack, a < pre.length) →
      (∀ a ∈ stack, (pre ++ rest)[a]? = some Token.LoopStart) →
      SegsBal (pre ++ rest) (pre.length :: stack) →
      (∀ p ∈ table, (p.2, p.1) ∈ table) →
      (∀ p ∈ table, MatchPair (pre ++ rest) p.1 p.2 ∨ MatchPair (pre ++ rest) p.2 p.1) →
      (∀ k, keyCount table k =
        if BracketAt (pre ++ rest) k ∧ k < pre.length ∧ k ∉ stack then 1 else 0) →
      parseLoopsAux rest pre.length stack table = .ok table' →
      (∀ p ∈ table', (p.2, p.1) ∈ table') ∧
      (∀ p ∈ table', MatchPair (pre ++ rest) p.1 p.2 ∨ MatchPair (pre ++ rest) p.2 p.1) ∧
      (∀ k, keyCount table' k = if BracketAt (pre ++ rest) k then 1 else 0) := by
  induction rest with
  | nil =>
    intro pre stack table table' hpw hbound hopens hsegs hsym hmatch hkey h
    cases stack with
    | cons a s => simp [parseLoopsAux] at h
    | nil =>
      simp only [parseLoopsAux] at h
      cases h
      simp only [List.append_nil] at hmatch hkey ⊢
      refine ⟨hsym, hmatch, ?_⟩
      intro k
      rw [hkey k]
      by_cases hb : BracketAt pre k
      · have hk : k < pre.length := by
          rcases hb with hb | hb <;> exact (List.getElem?_eq_some.mp hb).1
        simp [hb, hk]
      · simp [hb]
  | cons t ts ih =>
    intro pre stack table table' hpw hbound hopens hsegs hsym hmatch hkey h
    have hassoc : (pre ++ [t]) ++ ts = pre ++ t :: ts := by simp
    have hlen : (pre ++ [t]).length = pre.length + 1 := by simp
    have htok_i : (pre ++ t :: ts)[pre.length]? = some t := by
      rw [List.getElem?_append_right (Nat.le_refl _)]
      simp
    cases t
    case LoopStart =>
      simp only [parseLoopsAux] at h
      rw [← hlen] at h
      have main := ih _ (pre.length :: stack) table table'
        (List.pairwise_cons.mpr ⟨fun a ha => hbound a ha, hpw⟩)
        (by
          intro a ha
          rw [hlen]
          rcases List.mem_cons.mp ha with rfl | ha'
          · omega
          · exact Nat.lt_succ_of_lt (hbound a ha'))
        (by
          intro a ha
          rw [hassoc]
          rcases List.mem_cons.mp ha with rfl | ha'
          · exact htok_i
          · exact hopens a ha')
        (by
          rw [hassoc, hlen]
          exact ⟨by rw [sliceBetween_self]; rfl, hsegs⟩)
        hsym
        (by rw [hassoc]; exact hmatch)
        (by
          intro k
          rw [hassoc, hlen, hkey k]
          apply if_congr _ rfl rfl
          by_cases hk : k = pre.length
          · subst hk
            constructor
            · rintro ⟨hb, h1, h2⟩
              omega
            · rintro ⟨hb, h1, h2⟩
              exact absurd (List.mem_cons_self _ _) h2
          · constructor
            · rintro ⟨hb, h1, h2⟩
              refine ⟨hb, by omega, ?_⟩
              intro hmem
              rcases List.mem_cons.mp hmem with h3 | h3
              · exact hk h3
              · exact h2 h3
            · rintro ⟨hb, h1, h2⟩
              exact ⟨hb, by omega, fun h3 => h2 (List.mem_cons_of_mem _ h3)⟩)
        h
      rwa [hassoc] at main
    case LoopEnd =>
      cases stack with
      | nil => simp [parseLoopsAux] at h
      | cons a s =>
        simp only [parseLoopsAux] at h
        rw [← hlen] at h
        have ha_lt : a < pre.length := hbound a (List.mem_cons_self a s)
        have ha_open : (pre ++ Token.LoopEnd :: ts)[a]? = some Token.LoopStart :=
          hopens a (List.mem_cons_self a s)
        have hbal_ai :
            BalancedTokens (sliceBetween (pre ++ Token.LoopEnd :: ts) a pre.length) :=
          hsegs.1
        have hmp : MatchPair (pre ++ Token.LoopEnd :: ts) a pre.length :=
          ⟨ha_lt, ha_open, htok_i, hbal_ai⟩
        have hlt_s : ∀ b ∈ s, b < a := (List.pairwise_cons.mp hpw).1
        have hLlen : pre.length < (pre ++ Token.LoopEnd :: ts).length := by
          rw [List.length_append, List.length_cons]
          omega
        have main := ih _ s ((a, pre.length) :: (pre.length, a) :: table) table'
          (List.pairwise_cons.mp hpw).2
          (by
            intro b hb
            rw [hlen]
            exact Nat.lt_succ_of_lt (hbound b (List.mem_cons_of_mem a hb)))
          (by
            intro b hb
            rw [hassoc]
            exact hopens b (List.mem_cons_of_mem a hb))
          (by
            rw [hassoc, hlen]
            cases s with
            | nil => trivial
            | cons a2 s2 =>
              refine ⟨?_, hsegs.2.2⟩
              have ha2a : a2 < a := hlt_s a2 (List.mem_cons_self a2 s2)
              have ha2L : a2 < pre.length :=
                hbound a2 (List.mem_cons_of_mem a (List.mem_cons_self a2 s2))
              rw [sliceBetween_snoc _ _ _ _ htok_i ha2L]
              rw [sliceBetween_split (pre ++ Token.LoopEnd :: ts) a2 a pre.length
                Token.LoopStart ha2a ha_lt (Nat.le_of_lt hLlen) ha_open]
              rw [List.append_assoc]
              exact balanced_wrap _ _ hsegs.2.1 hbal_ai)
          (by
            intro p hp
            rcases List.mem_cons.mp hp with rfl | hp1
            · exact List.mem_cons_of_mem _ (List.mem_cons_self _ _)
            rcases List.mem_cons.mp hp1 with rfl | hp2
            · exact List.mem_cons_self _ _
            · exact List.mem_cons_of_mem _ (List.mem_cons_of_mem _ (hsym p hp2)))
          (by
            intro p hp
            rw [hassoc]
            rcases List.mem_cons.mp hp with rfl | hp1
            · exact Or.inl hmp
            rcases List.mem_cons.mp hp1 with rfl | hp2
            · exact Or.inr hmp
            · exact hmatch p hp2)
          (by
            intro k
            rw [hassoc, hlen]
            simp only [keyCount, List.countP_cons] at hkey ⊢
            simp only [beq_iff_eq]
            by_cases hka : k = a
            · rw [hkey k]
              rw [if_neg (show ¬(BracketAt (pre ++ Token.LoopEnd :: ts) k ∧
                  k < pre.length ∧ k ∉ a :: s) from by
                rintro ⟨hb, h1, h2⟩
                exact h2 (by rw [hka]; exact List.mem_cons_self a s))]
              rw [if_neg (show ¬(pre.length = k) by omega)]
              rw [if_pos (show a = k by omega)]
              have hcond : BracketAt (pre ++ Token.LoopEnd :: ts) k ∧
                  k < pre.length + 1 ∧ k ∉ s :=
                ⟨Or.inl (by rw [hka]; exact ha_open), by omega,
                 fun hmem => by
                   have h1 := hlt_s k hmem
                   omega⟩
              rw [if_pos hcond]
            · by_cases hkL : k = pre.length
              · rw [hkey k]
                rw [if_neg (show ¬(BracketAt (pre ++ Token.LoopEnd :: ts) k ∧
                    k < pre.length ∧ k ∉ a :: s) from by
                  rintro ⟨hb, h1, h2⟩
                  omega)]
                rw [if_pos (show pre.length = k by omega)]
                rw [if_neg (show ¬(a = k) by omega)]
                have hcond : BracketAt (pre ++ Token.LoopEnd :: ts) k ∧
                    k < pre.length + 1 ∧ k ∉ s :=
                  ⟨Or.inr (by rw [hkL]; exact htok_i), by omega,
                   fun hmem => by
                     have h1 := hlt_s k hmem
                     omega⟩
                rw [if_pos hcond]
              · rw [hkey k]
                rw [if_neg (show ¬(pre.length = k) by omega)]
                rw [if_neg (show ¬(a = k) by omega)]
                simp only [Nat.add_zero]
                apply if_congr _ rfl rfl
                constructor
                · rintro ⟨hb, h1, h2⟩
                  refine ⟨hb, by omega, fun h3 => h2 (List.mem_cons_of_mem _ h3)⟩
                · rintro ⟨hb, h1, h2⟩
                  refine ⟨hb, by omega, ?_⟩
                  intro hmem
                  rcases List.mem_cons.mp hmem with h3 | h3
                  · exact hka h3
                  · exact h2 h3)
          h
        rwa [hassoc] at main
    all_goals {
      simp only [parseLoopsAux] at h
      rw [← hlen] at h
      have main := ih _ stack table table'
        hpw
        (by
          intro a ha
          rw [hlen]
          exact Nat.lt_succ_of_lt (hbound a ha))
        (by
          intro a ha
          rw [hassoc]
          exact hopens a ha)
        (by
          rw [hassoc, hlen]
          cases stack with
          | nil => trivial
          | cons s1 s2 =>
            refine ⟨?_, hsegs.2⟩
            rw [sliceBetween_snoc _ _ _ _ htok_i (hbound s1 (List.mem_cons_self s1 s2))]
            show depthRun _ 0 = some 0
            rw [depthRun_append]
            have hb1 : depthRun _ 0 = some 0 := hsegs.1
            rw [hb1]
            rfl)
        hsym
        (by rw [hassoc]; exact hmatch)
        (by
          intro k
          rw [hassoc, hlen, hkey k]
          apply if_congr _ rfl rfl
          constructor
          · rintro ⟨hb, h1, h2⟩
            exact ⟨hb, by omega, h2⟩
          · rintro ⟨hb, h1, h2⟩
            refine ⟨hb, ?_, h2⟩
            rcases Nat.lt_succ_iff_lt_or_eq.mp h1 with h3 | h3
            · exact h3
            · exfalso
              subst h3
              rcases hb with hb | hb <;> simp [htok_i] at hb)
        h
      rwa [hassoc] at main
    }

/-- Two lexical matches of the same loop-open cannot be ordered: the
earlier close would sit at depth zero inside the later balanced interior. -/
theorem MatchPair_absurd_lt (tokens : List Token) (a b b' : Nat)
    (h1 : MatchPair tokens a b) (h2 : MatchPair tokens a b') (hlt : b < b') : False := by
  obtain ⟨haltb, haop, hbcl, hbal⟩ := h1
  obtain ⟨haltb', haop', hbcl', hbal'⟩ := h2
  have hb'len : b' < tokens.length := (List.getElem?_eq_some.mp hbcl').1
  have hsplit := sliceBetween_split tokens a b b' Token.LoopEnd haltb hlt
    (Nat.le_of_lt hb'len) hbcl
  rw [hsplit] at hbal'
  unfold BalancedTokens at hbal hbal'
  rw [depthRun_append, depthRun_append, hbal] at hbal'
  simp [depthRun] at hbal'

/-- A loop-open address has at most one lexically matching loop-close. -/
theorem MatchPair_unique (tokens : List Token) (a b b' : Nat)
    (h1 : MatchPair tokens a b) (h2 : MatchPair tokens a b') : b = b' := by
  rcases Nat.lt_trichotomy b b' with hlt | heq | hlt
  · exact absurd (MatchPair_absurd_lt tokens a b b' h1 h2 hlt) (fun h => h)
  · exact heq
  · exact absurd (MatchPair_absurd_lt tokens a b' b h2 h1 hlt) (fun h => h)

/-- Claim C5: for every instruction sequence the resolver accepts, the
jump table is symmetric — for every entry `(a, b)` the entry `(b, a)` is
present — every entry relates a loop-open to its lexically matching
loop-close (stack-based innermost-first matching, characterized by
`MatchPair`: the open before the close with balanced interior) in the
appropriate direction, the lexical match of a loop-open is unique, and
every loop-open/loop-close address is the key of exactly one entry while
non-bracket addresses key none. -/
theorem claim_C5_jump_table (tokens : List Token) (table : List (Nat × Nat))
    (h : parse_loops tokens = .ok table) :
    (∀ p ∈ table, (p.2, p.1) ∈ table) ∧
    (∀ p ∈ table, MatchPair tokens p.1 p.2 ∨ MatchPair tokens p.2 p.1) ∧
    (∀ a b, (a, b) ∈ table → tokens[a]? = some Token.LoopStart →
      MatchPair tokens a b) ∧
    (∀ a b, (a, b) ∈ table → tokens[a]? = some Token.LoopEnd →
      MatchPair tokens b a) ∧
    (∀ a b b', MatchPair tokens a b → MatchPair tokens a b' → b = b') ∧
    (∀ k, keyCount table k = if BracketAt tokens k then 1 else 0) := by
  have main := parseAux_table_inv tokens [] [] [] table
    List.Pairwise.nil (by simp) (by simp) trivial (by simp) (by simp)
    (by intro k; simp [keyCount]) h
  rw [List.nil_append] at main
  obtain ⟨m1, m2, m3⟩ := main
  refine ⟨m1, m2, ?_, ?_, ?_, m3⟩
  · intro a b hmem hopen
    rcases m2 (a, b) hmem with hmp | hmp
    · exact hmp
    · exfalso
      have hcl := hmp.2.2.1
      rw [hopen] at hcl
      cases hcl
  · intro a b hmem hclose
    rcases m2 (a, b) hmem with hmp | hmp
    · exfalso
      have hop := hmp.2.1
      rw [hclose] at hop
      cases hop
    · exact hmp
  · exact fun a b b' => MatchPair_unique tokens a b b'

/-- Witness for `claim_C5_jump_table` on the program `[[]]`: the resolver
yields the table `(0 ↔ 3), (1 ↔ 2)`; symmetry, lexical matching and the
one-entry-per-bracket count hold at concrete addresses. -/
theorem claim_C5_jump_table_witness :
    ((3, 0) ∈ ([(0, 3), (3, 0), (1, 2), (2, 1)] : List (Nat × Nat))) ∧
    MatchPair (tokenize "[[]]".data) 0 3 ∧
    keyCount [(0, 3), (3, 0), (1, 2), (2, 1)] 1 = 1 :=
  ⟨(claim_C5_jump_table (tokenize "[[]]".data) [(0, 3), (3, 0), (1, 2), (2, 1)] rfl).1
      (0, 3) (by decide),
   (claim_C5_jump_table (tokenize "[[]]".data) [(0, 3), (3, 0), (1, 2), (2, 1)] rfl).2.2.1
      0 3 (by decide) (by decide),
   by
    rw [(claim_C5_jump_table (tokenize "[[]]".data)
      [(0, 3), (3, 0), (1, 2), (2, 1)] rfl).2.2.2.2.2 1]
    decide⟩
